import Mathlib

set_option maxRecDepth 100000

/-!
Formal model of the NodeResourcesAllocatable score plugin
(`pkg/noderesources/allocatable.go`).

Go `int64` values are modelled as `Int` together with explicit
two's-complement wrapping (`toInt64`, reduction mod 2^64) applied at every
arithmetic operation the Go code performs, so overflow behaves exactly as
in Go.  Go's integer division truncates toward zero (`Int.tdiv`).  Go
panics on division by zero and on `MinInt64 / -1`; these are modelled as
total functions (`Int.tdiv _ 0 = 0`), and no theorem below relies on those
corner cases except where a counterexample explicitly exhibits a zero
divisor.
-/

namespace NRAlloc

/-- 2^64, the modulus of Go int64 wrap-around arithmetic. -/
def int64Mod : Int := 2 ^ 64

/-- Smallest int64 value (math.MinInt64). -/
def int64Min : Int := -(2 ^ 63)

/-- Largest int64 value (math.MaxInt64). -/
def int64Max : Int := 2 ^ 63 - 1

/-- Interpret an unbounded integer as the int64 it wraps to
(two's-complement reduction mod 2^64). -/
def toInt64 (n : Int) : Int := (n + 2 ^ 63) % int64Mod - 2 ^ 63

/-- The value `n` is representable as a Go int64. -/
def InRange64 (n : Int) : Prop := int64Min ≤ n ∧ n ≤ int64Max

instance (n : Int) : Decidable (InRange64 n) := by
  unfold InRange64; infer_instance

/-- Wrapping int64 addition, as performed by Go `+` on int64. -/
def i64add (a b : Int) : Int := toInt64 (a + b)

/-- Wrapping int64 subtraction, as performed by Go `-` on int64. -/
def i64sub (a b : Int) : Int := toInt64 (a - b)

/-- Wrapping int64 multiplication, as performed by Go `*` on int64. -/
def i64mul (a b : Int) : Int := toInt64 (a * b)

/-- Go int64 division: truncation toward zero, result wrapped.  (Go in fact
panics on a zero divisor and on `MinInt64 / -1`; modelled totally here.) -/
def i64div (a b : Int) : Int := toInt64 (Int.tdiv a b)

theorem pow63_eq : (2 : Int) ^ 63 = 9223372036854775808 := by norm_num

theorem int64Mod_eq : int64Mod = 18446744073709551616 := by norm_num [int64Mod]

theorem toInt64_eq_self {n : Int} (h1 : int64Min ≤ n) (h2 : n ≤ int64Max) :
    toInt64 n = n := by
  unfold toInt64
  rw [int64Mod_eq, pow63_eq]
  rw [Int.emod_eq_of_lt (by unfold int64Min at h1; rw [pow63_eq] at h1; omega)
    (by unfold int64Max at h2; rw [pow63_eq] at h2; omega)]
  omega

theorem toInt64_lb (n : Int) : int64Min ≤ toInt64 n := by
  unfold toInt64 int64Min
  have h := Int.emod_nonneg (n + 2 ^ 63) (b := int64Mod) (by rw [int64Mod_eq]; omega)
  omega

theorem toInt64_ub (n : Int) : toInt64 n ≤ int64Max := by
  unfold toInt64 int64Max
  have h := Int.emod_lt_of_pos (n + 2 ^ 63) (b := int64Mod) (by rw [int64Mod_eq]; omega)
  rw [int64Mod_eq] at h ⊢
  rw [pow63_eq] at h ⊢
  omega

theorem toInt64_inRange (n : Int) : InRange64 (toInt64 n) :=
  ⟨toInt64_lb n, toInt64_ub n⟩

theorem toInt64_modEq (n : Int) : Int.ModEq int64Mod (toInt64 n) n := by
  unfold toInt64
  have h : Int.ModEq int64Mod ((n + 2 ^ 63) % int64Mod) (n + 2 ^ 63) :=
    Int.emod_emod_of_dvd _ dvd_rfl
  have h2 := Int.ModEq.sub_right (2 ^ 63) h
  simpa using h2

theorem toInt64_congr {a b : Int} (h : Int.ModEq int64Mod a b) :
    toInt64 a = toInt64 b := by
  unfold toInt64
  have h2 := Int.ModEq.add_right (2 ^ 63) h
  unfold Int.ModEq at h2
  omega

theorem int64_eq_of_modEq {a b : Int} (h : Int.ModEq int64Mod a b)
    (ha : InRange64 a) (hb : InRange64 b) : a = b := by
  obtain ⟨k, hk⟩ := Int.ModEq.dvd h
  obtain ⟨ha1, ha2⟩ := ha
  obtain ⟨hb1, hb2⟩ := hb
  unfold int64Min at ha1 hb1
  unfold int64Max at ha2 hb2
  rw [pow63_eq] at ha1 ha2 hb1 hb2
  rw [int64Mod_eq] at hk
  have hk0 : k = 0 := by nlinarith
  omega

/-- Scoring mode `config.Least` (apis/config ModeType value). -/
def Least : String := "Least"

/-- Scoring mode `config.Most` (apis/config ModeType value). -/
def Most : String := "Most"

/-- Go map read `allocable[resource]` on a resourceToValueMap: an absent key
yields the zero value 0. -/
def allocOf (allocable : List (String × Int)) (r : String) : Int :=
  (allocable.lookup r).getD 0

/-- The per-resource `score` function of allocatable.go: `-1 * capacity` in
`Least` mode, `capacity` in `Most` mode, and 0 (after a diagnostic log, not
modelled) for any other mode. -/
def score (capacity : Int) (mode : String) : Int :=
  if mode = Least then i64mul (-1) capacity
  else if mode = Most then capacity
  else 0

/-- The accumulation loop of `resourceScorer`: fold over the weight table in
iteration order, accumulating the wrapped int64 sums `nodeScore` (first
component) and `weightSum` (second component). -/
def scoreAcc (resToWeightMap : List (String × Int)) (mode : String)
    (allocable : List (String × Int)) : Int × Int :=
  resToWeightMap.foldl
    (fun acc p =>
      (i64add acc.1 (i64mul (score (allocOf allocable p.1) mode) p.2),
       i64add acc.2 p.2))
    (0, 0)

/-- The closure returned by `resourceScorer(...)`, applied to one node's
allocatable map: `nodeScore / weightSum` with Go truncating division.  (The
`requested` argument is unused by the source closure and omitted; the Go map
is modelled as an association list whose order is the iteration order.) -/
def resourceScorer (resToWeightMap : List (String × Int)) (mode : String)
    (allocable : List (String × Int)) : Int :=
  i64div (scoreAcc resToWeightMap mode allocable).1
    (scoreAcc resToWeightMap mode allocable).2

/-- The wrapped weight sum accumulated by the `resourceScorer` loop, as a
standalone quantity. -/
def nodeWeightSum (resToWeightMap : List (String × Int)) : Int :=
  resToWeightMap.foldl (fun acc p => i64add acc p.2) 0

/-- The message of `fmt.Errorf("resource Weight of %v should be a positive
value, got %v", resource.Name, resource.Weight)`. -/
def weightErrMsg (name : String) (weight : Int) : String :=
  "resource Weight of " ++ name ++ " should be a positive value, got " ++
    toString weight

/-- `validateResources` from allocatable.go: report the first resource spec
whose weight is not positive. -/
def validateResources : List (String × Int) → Except String Unit
  | [] => Except.ok ()
  | p :: rest =>
    if p.2 ≤ 0 then Except.error (weightErrMsg p.1 p.2)
    else validateResources rest

/-- Modelled from the spec: `validation.ValidateNodeResourcesAllocatableArgs`
(package apis/config/validation, whose source is not under src/).  Per §4.1
the only validation failure condition is a supplied weight ≤ 0, reported
with the offending resource name and weight — the same check `validateResources`
in allocatable.go performs. -/
def ValidateNodeResourcesAllocatableArgs (resources : List (String × Int)) :
    Except String Unit :=
  validateResources resources

/-- `config.NodeResourcesAllocatableArgs`: (Name, Weight) resource specs plus
a mode string. -/
structure NodeResourcesAllocatableArgs where
  resources : List (String × Int)
  mode : String
deriving DecidableEq

/-- Modelled from the spec: `defaultResourcesToWeightMap` (defined in the
package's resource_allocation.go, not under src/): the built-in default
weighting — cpu and memory, each with weight 1 (§4.1 and the spec's concrete
scenarios). -/
def defaultResourcesToWeightMap : List (String × Int) := [("cpu", 1), ("memory", 1)]

/-- The constructed `Allocatable` plugin state the scoring algorithm depends
on: the weight table and the mode captured by `resourceScorer`.  (Logger and
framework handle carry no algorithmic content and are omitted.) -/
structure AllocatablePlugin where
  resourceToWeightMap : List (String × Int)
  mode : String
deriving DecidableEq

/-- One Go map assignment `m[k] = v` on an association list: overwrite an
existing entry for `k`, else append a new one. -/
def insertRW (m : List (String × Int)) (k : String) (v : Int) :
    List (String × Int) :=
  if m.any (fun p => p.1 == k) then
    m.map (fun p => if p.1 = k then (k, v) else p)
  else m ++ [(k, v)]

/-- The loop in `NewAllocatable` that rebuilds `resToWeightMap` from the
supplied resource list (`resToWeightMap[name] = weight` per entry). -/
def buildResourceMap (resources : List (String × Int)) : List (String × Int) :=
  resources.foldl (fun m p => insertRW m p.1 p.2) []

/-- `NewAllocatable` from allocatable.go.  `none` models a nil `runtime.Object`
argument (the type-assertion-failure branch for a non-nil argument of the
wrong Go type is not modelled).  Note that with a nil argument `mode` keeps
`""`, the zero value of `config.ModeType`: the `Least` default is applied
only inside the non-nil branch. -/
def NewAllocatable (allocArgs : Option NodeResourcesAllocatableArgs) :
    Except String AllocatablePlugin :=
  -- Start with default values.
  let mode : String := ""
  let resToWeightMap := defaultResourcesToWeightMap
  match allocArgs with
  | none => Except.ok ⟨resToWeightMap, mode⟩
  | some args0 =>
    let args := if args0.mode = "" then { args0 with mode := Least } else args0
    match ValidateNodeResourcesAllocatableArgs args.resources with
    | Except.error e => Except.error e
    | Except.ok _ =>
      let m := if args.resources.length > 0 then buildResourceMap args.resources
               else resToWeightMap
      Except.ok ⟨m, args.mode⟩

/-- Modelled from the spec: `framework.MinNodeScore` (k8s scheduler framework,
not under src/); the spec's scenarios fix MinScore = 0. -/
def MinNodeScore : Int := 0

/-- Modelled from the spec: `framework.MaxNodeScore` (k8s scheduler framework,
not under src/); the spec's scenarios fix MaxScore = 100. -/
def MaxNodeScore : Int := 100

/-- `framework.NodeScore`: a node name with its int64 score. -/
structure NodeScore where
  name : String
  score : Int
deriving DecidableEq

/-- The `highest` accumulator loop of `NormalizeScore`, from an arbitrary
initial value. -/
def foldHighest (scores : List NodeScore) (a : Int) : Int :=
  scores.foldl (fun h ns => if ns.score > h then ns.score else h) a

/-- The `lowest` accumulator loop of `NormalizeScore`, from an arbitrary
initial value. -/
def foldLowest (scores : List NodeScore) (a : Int) : Int :=
  scores.foldl (fun l ns => if ns.score < l then ns.score else l) a

/-- `highest` as computed by `NormalizeScore`: the accumulator starts at
`-math.MaxInt64` (note: not MinInt64), exactly as in the source. -/
def listHighest (scores : List NodeScore) : Int := foldHighest scores (-int64Max)

/-- `lowest` as computed by `NormalizeScore`: the accumulator starts at
`math.MaxInt64`. -/
def listLowest (scores : List NodeScore) : Int := foldLowest scores int64Max

/-- `NormalizeScore` from allocatable.go: find `highest` and `lowest`, then
rewrite every score to `MinNodeScore` when `oldRange == 0`, else to
`((score - lowest) * newRange / oldRange) + MinNodeScore`, all in wrapped
int64 arithmetic.  (The source mutates the slice in place and returns a nil
status; the observable result is the rewritten list.) -/
def NormalizeScore (scores : List NodeScore) : List NodeScore :=
  let highest := listHighest scores
  let lowest := listLowest scores
  let oldRange := i64sub highest lowest
  let newRange := i64sub MaxNodeScore MinNodeScore
  scores.map fun ns =>
    if oldRange = 0 then { ns with score := MinNodeScore }
    else
      let v := i64add (i64div (i64mul (i64sub ns.score lowest) newRange) oldRange) MinNodeScore
      { ns with score := v }

/-! Wrap-absorption lemmas: an inner `toInt64` inside a sum may be dropped
under an outer `toInt64`. -/

theorem toInt64_add_left (x s : Int) : toInt64 (toInt64 x + s) = toInt64 (x + s) :=
  toInt64_congr ((toInt64_modEq x).add_right s)

theorem toInt64_add_right (x s : Int) : toInt64 (x + toInt64 s) = toInt64 (x + s) :=
  toInt64_congr ((toInt64_modEq s).add_left x)

theorem toInt64_add_mid (x v s : Int) :
    toInt64 (x + toInt64 v + s) = toInt64 (x + v + s) :=
  toInt64_congr (((toInt64_modEq v).add_left x).add_right s)

theorem toInt64_add_mid2 (x v s : Int) :
    toInt64 (x + (toInt64 v + s)) = toInt64 (x + (v + s)) :=
  toInt64_congr (((toInt64_modEq v).add_right s).add_left x)

theorem toInt64_ne_zero_of_small {d : Int} (h1 : 1 ≤ d) (h2 : d < int64Mod) :
    toInt64 d ≠ 0 := by
  intro h0
  have hm := toInt64_modEq d
  rw [h0] at hm
  obtain ⟨k, hk⟩ := Int.ModEq.dvd hm
  rw [int64Mod_eq] at hk h2
  simp only [sub_zero] at hk
  have hk0 : k = 0 := by nlinarith
  omega

/-- Pointwise congruence mod 2^64 of the summands gives congruence of the
list sums. -/
theorem sum_map_modEq {α : Type} (l : List α) (f g : α → Int)
    (h : ∀ x ∈ l, Int.ModEq int64Mod (f x) (g x)) :
    Int.ModEq int64Mod ((l.map f).sum) ((l.map g).sum) := by
  induction l with
  | nil => exact Int.ModEq.refl 0
  | cons p rest ih =>
    simp only [List.map_cons, List.sum_cons]
    exact (h p (List.mem_cons_self p rest)).add
      (ih (fun x hx => h x (List.mem_cons_of_mem p hx)))

/-- The `resourceScorer` loop from any in-range accumulator pair: both wrapped
running sums equal the wrap of the corresponding mathematical sums. -/
theorem scoreAcc_foldl (mode : String) (alloc : List (String × Int)) :
    ∀ (cfg : List (String × Int)) (a : Int × Int), InRange64 a.1 → InRange64 a.2 →
      cfg.foldl
        (fun acc p =>
          (i64add acc.1 (i64mul (score (allocOf alloc p.1) mode) p.2),
           i64add acc.2 p.2)) a =
      (toInt64 (a.1 + (cfg.map (fun p => score (allocOf alloc p.1) mode * p.2)).sum),
       toInt64 (a.2 + (cfg.map Prod.snd).sum)) := by
  intro cfg
  induction cfg with
  | nil =>
    intro a h1 h2
    simp [toInt64_eq_self h1.1 h1.2, toInt64_eq_self h2.1 h2.2]
  | cons p rest ih =>
    intro a h1 h2
    rw [List.foldl_cons, ih _ (toInt64_inRange _) (toInt64_inRange _)]
    refine Prod.ext ?_ ?_
    · simp only [i64add, i64mul, List.map_cons, List.sum_cons]
      rw [toInt64_add_left, add_assoc, toInt64_add_mid2]
    · simp only [i64add, List.map_cons, List.sum_cons]
      rw [toInt64_add_left, add_assoc]

/-- `scoreAcc` itself (accumulator `(0, 0)`) in terms of mathematical sums. -/
theorem scoreAcc_eq (cfg : List (String × Int)) (mode : String)
    (alloc : List (String × Int)) :
    scoreAcc cfg mode alloc =
      (toInt64 ((cfg.map (fun p => score (allocOf alloc p.1) mode * p.2)).sum),
       toInt64 ((cfg.map Prod.snd).sum)) := by
  have h := scoreAcc_foldl mode alloc cfg (0, 0) (by decide) (by decide)
  simpa [scoreAcc] using h

/-- The wrapped weight sum is the wrap of the mathematical weight sum. -/
theorem nodeWeightSum_eq (cfg : List (String × Int)) :
    nodeWeightSum cfg = toInt64 ((cfg.map Prod.snd).sum) := by
  suffices h : ∀ (l : List (String × Int)) (a : Int), InRange64 a →
      l.foldl (fun acc p => i64add acc p.2) a = toInt64 (a + (l.map Prod.snd).sum) by
    have h2 := h cfg 0 (by decide)
    simpa [nodeWeightSum] using h2
  intro l
  induction l with
  | nil => intro a ha; simp [toInt64_eq_self ha.1 ha.2]
  | cons p rest ih =>
    intro a ha
    rw [List.foldl_cons, ih (i64add a p.2) (toInt64_inRange _)]
    simp only [i64add, List.map_cons, List.sum_cons]
    rw [toInt64_add_left, add_assoc]

/-! Truncating-division lemmas. -/

/-- Go truncating division is monotone in the numerator for a positive
divisor. -/
theorem tdiv_le_tdiv_right {a b c : Int} (hc : 0 < c) (h : a ≤ b) :
    Int.tdiv a c ≤ Int.tdiv b c := by
  rcases le_or_lt 0 a with ha | ha
  · rw [Int.tdiv_eq_ediv ha hc.le, Int.tdiv_eq_ediv (le_trans ha h) hc.le]
    exact Int.ediv_le_ediv hc h
  · rcases le_or_lt 0 b with hb | hb
    · have h1 : 0 ≤ Int.tdiv (-a) c := Int.tdiv_nonneg (by omega) hc.le
      have e1 : Int.tdiv (-a) c = -Int.tdiv a c := Int.neg_tdiv a c
      have h2 : 0 ≤ Int.tdiv b c := Int.tdiv_nonneg hb hc.le
      omega
    · have hle : -b ≤ -a := by omega
      have h1 : Int.tdiv (-b) c ≤ Int.tdiv (-a) c := by
        rw [Int.tdiv_eq_ediv (by omega) hc.le, Int.tdiv_eq_ediv (by omega) hc.le]
        exact Int.ediv_le_ediv hc hle
      have e1 : Int.tdiv (-a) c = -Int.tdiv a c := Int.neg_tdiv a c
      have e2 : Int.tdiv (-b) c = -Int.tdiv b c := Int.neg_tdiv b c
      omega

/-- Truncating division by a positive divisor keeps an in-range numerator in
range. -/
theorem tdiv_inRange {a c : Int} (hc : 0 < c) (ha : InRange64 a) :
    InRange64 (Int.tdiv a c) := by
  obtain ⟨ha1, ha2⟩ := ha
  rcases le_or_lt 0 a with h0 | h0
  · have hq1 : 0 ≤ Int.tdiv a c := Int.tdiv_nonneg h0 hc.le
    have hq2 : Int.tdiv a c ≤ a := by
      rw [Int.tdiv_eq_ediv h0 hc.le]
      exact Int.ediv_le_self c h0
    constructor
    · exact le_trans (by unfold int64Min; rw [pow63_eq]; omega) hq1
    · omega
  · have e1 : Int.tdiv (-a) c = -Int.tdiv a c := Int.neg_tdiv a c
    have hq1 : 0 ≤ Int.tdiv (-a) c := Int.tdiv_nonneg (by omega) hc.le
    have hq2 : Int.tdiv (-a) c ≤ -a := by
      rw [Int.tdiv_eq_ediv (by omega) hc.le]
      exact Int.ediv_le_self c (by omega)
    constructor
    · omega
    · have : 0 ≤ int64Max := by unfold int64Max; rw [pow63_eq]; omega
      omega

/-! Lemmas about the highest/lowest accumulator loops of `NormalizeScore`. -/

theorem foldHighest_nil (a : Int) : foldHighest [] a = a := rfl

theorem foldHighest_cons (t : NodeScore) (rest : List NodeScore) (a : Int) :
    foldHighest (t :: rest) a = foldHighest rest (if t.score > a then t.score else a) := rfl

theorem foldLowest_nil (a : Int) : foldLowest [] a = a := rfl

theorem foldLowest_cons (t : NodeScore) (rest : List NodeScore) (a : Int) :
    foldLowest (t :: rest) a = foldLowest rest (if t.score < a then t.score else a) := rfl

theorem init_le_foldHighest (l : List NodeScore) : ∀ a : Int, a ≤ foldHighest l a := by
  induction l with
  | nil => intro a; rw [foldHighest_nil]
  | cons t rest ih =>
    intro a
    rw [foldHighest_cons]
    refine le_trans ?_ (ih _)
    split <;> omega

theorem le_foldHighest (l : List NodeScore) :
    ∀ (a : Int) (s : NodeScore), s ∈ l → s.score ≤ foldHighest l a := by
  induction l with
  | nil => intro a s hs; cases hs
  | cons t rest ih =>
    intro a s hs
    rw [foldHighest_cons]
    rcases List.mem_cons.mp hs with h | h
    · subst h
      refine le_trans ?_ (init_le_foldHighest rest _)
      split <;> omega
    · exact ih _ s h

theorem foldHighest_choice (l : List NodeScore) :
    ∀ a : Int, foldHighest l a = a ∨ ∃ s ∈ l, foldHighest l a = s.score := by
  induction l with
  | nil => intro a; exact Or.inl (foldHighest_nil a)
  | cons t rest ih =>
    intro a
    rw [foldHighest_cons]
    rcases ih (if t.score > a then t.score else a) with h | ⟨s, hs, he⟩
    · rw [h]
      split
      · exact Or.inr ⟨t, List.mem_cons_self t rest, rfl⟩
      · exact Or.inl rfl
    · exact Or.inr ⟨s, List.mem_cons_of_mem t hs, he⟩

theorem foldLowest_le_init (l : List NodeScore) : ∀ a : Int, foldLowest l a ≤ a := by
  induction l with
  | nil => intro a; rw [foldLowest_nil]
  | cons t rest ih =>
    intro a
    rw [foldLowest_cons]
    refine le_trans (ih _) ?_
    split <;> omega

theorem foldLowest_le (l : List NodeScore) :
    ∀ (a : Int) (s : NodeScore), s ∈ l → foldLowest l a ≤ s.score := by
  induction l with
  | nil => intro a s hs; cases hs
  | cons t rest ih =>
    intro a s hs
    rw [foldLowest_cons]
    rcases List.mem_cons.mp hs with h | h
    · subst h
      refine le_trans (foldLowest_le_init rest _) ?_
      split <;> omega
    · exact ih _ s h

theorem foldLowest_choice (l : List NodeScore) :
    ∀ a : Int, foldLowest l a = a ∨ ∃ s ∈ l, foldLowest l a = s.score := by
  induction l with
  | nil => intro a; exact Or.inl (foldLowest_nil a)
  | cons t rest ih =>
    intro a
    rw [foldLowest_cons]
    rcases ih (if t.score < a then t.score else a) with h | ⟨s, hs, he⟩
    · rw [h]
      split
      · exact Or.inr ⟨t, List.mem_cons_self t rest, rfl⟩
      · exact Or.inl rfl
    · exact Or.inr ⟨s, List.mem_cons_of_mem t hs, he⟩

theorem mem_le_listHighest {l : List NodeScore} {s : NodeScore} (h : s ∈ l) :
    s.score ≤ listHighest l :=
  le_foldHighest l _ s h

theorem listLowest_le_mem {l : List NodeScore} {s : NodeScore} (h : s ∈ l) :
    listLowest l ≤ s.score :=
  foldLowest_le l _ s h

theorem listHighest_inRange {l : List NodeScore} (hr : ∀ s ∈ l, InRange64 s.score) :
    InRange64 (listHighest l) := by
  rcases foldHighest_choice l (-int64Max) with h | ⟨s, hs, he⟩
  · unfold listHighest; rw [h]; decide
  · unfold listHighest; rw [he]; exact hr s hs

theorem listLowest_inRange {l : List NodeScore} (hr : ∀ s ∈ l, InRange64 s.score) :
    InRange64 (listLowest l) := by
  rcases foldLowest_choice l int64Max with h | ⟨s, hs, he⟩
  · unfold listLowest; rw [h]; decide
  · unfold listLowest; rw [he]; exact hr s hs

/-- `NormalizeScore` with its local lets flattened. -/
theorem NormalizeScore_eq (l : List NodeScore) :
    NormalizeScore l = l.map fun ns =>
      if i64sub (listHighest l) (listLowest l) = 0 then ⟨ns.name, MinNodeScore⟩
      else
        ⟨ns.name,
         i64add
            (i64div (i64mul (i64sub ns.score (listLowest l))
                (i64sub MaxNodeScore MinNodeScore))
              (i64sub (listHighest l) (listLowest l)))
            MinNodeScore⟩ := rfl

/-! Validation and construction lemmas. -/

theorem validateResources_ok {rs : List (String × Int)} (h : ∀ p ∈ rs, 0 < p.2) :
    validateResources rs = Except.ok () := by
  induction rs with
  | nil => rfl
  | cons p rest ih =>
    unfold validateResources
    rw [if_neg (by have := h p (List.mem_cons_self p rest); omega)]
    exact ih (fun q hq => h q (List.mem_cons_of_mem p hq))

theorem validateResources_ok_pos {rs : List (String × Int)}
    (h : validateResources rs = Except.ok ()) : ∀ p ∈ rs, 0 < p.2 := by
  induction rs with
  | nil => intro p hp; cases hp
  | cons p rest ih =>
    intro q hq
    unfold validateResources at h
    by_cases hw : p.2 ≤ 0
    · rw [if_pos hw] at h; cases h
    · rw [if_neg hw] at h
      rcases List.mem_cons.mp hq with h1 | h1
      · subst h1; omega
      · exact ih h q h1

theorem validateResources_first_bad {rs : List (String × Int)}
    (h : ∃ q ∈ rs, q.2 ≤ 0) :
    ∃ q ∈ rs, q.2 ≤ 0 ∧ validateResources rs = Except.error (weightErrMsg q.1 q.2) := by
  induction rs with
  | nil => obtain ⟨q, hq, _⟩ := h; cases hq
  | cons p rest ih =>
    by_cases hw : p.2 ≤ 0
    · refine ⟨p, List.mem_cons_self p rest, hw, ?_⟩
      unfold validateResources
      rw [if_pos hw]
    · obtain ⟨q, hq, hq2⟩ := h
      rcases List.mem_cons.mp hq with h1 | h1
      · subst h1; omega
      · obtain ⟨q2, hq2m, hq2w, hq2e⟩ := ih ⟨q, h1, hq2⟩
        refine ⟨q2, List.mem_cons_of_mem p hq2m, hq2w, ?_⟩
        unfold validateResources
        rw [if_neg hw]
        exact hq2e

theorem insertRW_ne_nil (m : List (String × Int)) (k : String) (v : Int) :
    insertRW m k v ≠ [] := by
  unfold insertRW
  split
  · intro h
    rcases m with _ | ⟨p, rest⟩
    · simp at *
    · simp at h
  · intro h
    simp at h

theorem insertRW_mem {m : List (String × Int)} {k : String} {v : Int}
    {q : String × Int} (h : q ∈ insertRW m k v) : q ∈ m ∨ q = (k, v) := by
  unfold insertRW at h
  split at h
  · rcases List.mem_map.mp h with ⟨p, hp, he⟩
    by_cases hk : p.1 = k
    · rw [if_pos hk] at he; exact Or.inr he.symm
    · rw [if_neg hk] at he; exact Or.inl (he ▸ hp)
  · rcases List.mem_append.mp h with h1 | h1
    · exact Or.inl h1
    · simp at h1; exact Or.inr h1

theorem buildResourceMap_mem {rs : List (String × Int)} {q : String × Int}
    (h : q ∈ buildResourceMap rs) : q ∈ rs := by
  suffices hs : ∀ (l : List (String × Int)) (m : List (String × Int)) (q : String × Int),
      q ∈ l.foldl (fun m p => insertRW m p.1 p.2) m → q ∈ m ∨ q ∈ l by
    rcases hs rs [] q h with h1 | h1
    · cases h1
    · exact h1
  intro l
  induction l with
  | nil => intro m q hq; exact Or.inl hq
  | cons p rest ih =>
    intro m q hq
    rw [List.foldl_cons] at hq
    rcases ih _ q hq with h1 | h1
    · rcases insertRW_mem h1 with h2 | h2
      · exact Or.inl h2
      · refine Or.inr (List.mem_cons.mpr (Or.inl ?_))
        rw [h2]
    · exact Or.inr (List.mem_cons_of_mem p h1)

theorem buildResourceMap_ne_nil {rs : List (String × Int)} (h : rs ≠ []) :
    buildResourceMap rs ≠ [] := by
  suffices hs : ∀ (l : List (String × Int)) (m : List (String × Int)),
      m ≠ [] → l.foldl (fun m p => insertRW m p.1 p.2) m ≠ [] by
    rcases rs with _ | ⟨p, rest⟩
    · exact absurd rfl h
    · unfold buildResourceMap
      rw [List.foldl_cons]
      exact hs rest _ (insertRW_ne_nil [] p.1 p.2)
  intro l
  induction l with
  | nil => intro m hm; exact hm
  | cons p rest ih =>
    intro m hm
    rw [List.foldl_cons]
    exact ih _ (insertRW_ne_nil m p.1 p.2)

/-- `NewAllocatable` on a non-nil argument, with the mode defaulting and the
validation call surfaced. -/
theorem NewAllocatable_some (args : NodeResourcesAllocatableArgs) :
    NewAllocatable (some args) =
      match validateResources args.resources with
      | Except.error e => Except.error e
      | Except.ok _ =>
        Except.ok
          ⟨if args.resources.length > 0 then buildResourceMap args.resources
            else defaultResourcesToWeightMap,
           if args.mode = "" then Least else args.mode⟩ := by
  rcases args with ⟨rs, md⟩
  by_cases hm : md = "" <;>
    simp [NewAllocatable, ValidateNodeResourcesAllocatableArgs, hm]

theorem int64Min_eq : int64Min = -9223372036854775808 := by norm_num [int64Min]

theorem int64Max_eq : int64Max = 9223372036854775807 := by norm_num [int64Max]

theorem i64mul_zero_left (x : Int) : i64mul 0 x = 0 := by
  unfold i64mul; rw [zero_mul]; decide

theorem i64div_zero_left (x : Int) : i64div 0 x = 0 := by
  unfold i64div; rw [Int.zero_tdiv]; decide

theorem i64sub_self (x : Int) : i64sub x x = 0 := by
  unfold i64sub; rw [sub_self]; decide

/-- In the non-degenerate branch, when the spread times the score range does
not overflow int64, the wrapped per-element normalization expression equals
the mathematical truncating-division formula, and that value lies in
`[MinNodeScore, MaxNodeScore]`. -/
theorem normalize_elem_value {l : List NodeScore} {t : NodeScore} (ht : t ∈ l)
    (hD1 : 1 ≤ listHighest l - listLowest l)
    (hDle : (listHighest l - listLowest l) * (MaxNodeScore - MinNodeScore) ≤ int64Max) :
    i64add
        (i64div (i64mul (i64sub t.score (listLowest l))
            (i64sub MaxNodeScore MinNodeScore))
          (i64sub (listHighest l) (listLowest l)))
        MinNodeScore =
      Int.tdiv ((t.score - listLowest l) * (MaxNodeScore - MinNodeScore))
        (listHighest l - listLowest l) + MinNodeScore ∧
    MinNodeScore ≤ Int.tdiv ((t.score - listLowest l) * (MaxNodeScore - MinNodeScore))
        (listHighest l - listLowest l) + MinNodeScore ∧
    Int.tdiv ((t.score - listLowest l) * (MaxNodeScore - MinNodeScore))
        (listHighest l - listLowest l) + MinNodeScore ≤ MaxNodeScore := by
  have hMin : MinNodeScore = (0 : Int) := rfl
  have hMax : MaxNodeScore = (100 : Int) := rfl
  simp only [hMin, hMax, sub_zero, add_zero] at hDle ⊢
  have hsL : listLowest l ≤ t.score := listLowest_le_mem ht
  have hsH : t.score ≤ listHighest l := mem_le_listHighest ht
  have hd0 : 0 ≤ t.score - listLowest l := by omega
  have hdD : t.score - listLowest l ≤ listHighest l - listLowest l := by omega
  have hDmax : listHighest l - listLowest l ≤ int64Max := by
    rw [int64Max_eq] at hDle ⊢; omega
  have hDpos : (0 : Int) < listHighest l - listLowest l := by omega
  have e0 : i64sub (100 : Int) 0 = 100 := by decide
  have e1 : i64sub t.score (listLowest l) = t.score - listLowest l :=
    toInt64_eq_self (by rw [int64Min_eq]; omega) (by rw [int64Max_eq] at hDmax ⊢; omega)
  have e2 : i64mul (t.score - listLowest l) 100 = (t.score - listLowest l) * 100 :=
    toInt64_eq_self (by rw [int64Min_eq]; omega) (by rw [int64Max_eq] at hDle ⊢; omega)
  have e3 : i64sub (listHighest l) (listLowest l) = listHighest l - listLowest l :=
    toInt64_eq_self (by rw [int64Min_eq]; omega) hDmax
  have hq0 : 0 ≤ Int.tdiv ((t.score - listLowest l) * 100) (listHighest l - listLowest l) :=
    Int.tdiv_nonneg (by omega) (by omega)
  have hqle : Int.tdiv ((t.score - listLowest l) * 100) (listHighest l - listLowest l) ≤ 100 := by
    have h1 := tdiv_le_tdiv_right hDpos
      (show (t.score - listLowest l) * 100 ≤ (listHighest l - listLowest l) * 100 by omega)
    have h2 : Int.tdiv ((listHighest l - listLowest l) * 100) (listHighest l - listLowest l)
        = 100 := Int.mul_tdiv_cancel_left 100 (by omega)
    omega
  have e5 : i64div ((t.score - listLowest l) * 100) (listHighest l - listLowest l) =
      Int.tdiv ((t.score - listLowest l) * 100) (listHighest l - listLowest l) :=
    toInt64_eq_self (by rw [int64Min_eq]; omega) (by rw [int64Max_eq]; omega)
  have e6 : i64add
      (Int.tdiv ((t.score - listLowest l) * 100) (listHighest l - listLowest l)) 0 =
      Int.tdiv ((t.score - listLowest l) * 100) (listHighest l - listLowest l) := by
    unfold i64add
    rw [add_zero]
    exact toInt64_eq_self (by rw [int64Min_eq]; omega) (by rw [int64Max_eq]; omega)
  rw [e0, e1, e2, e3, e5, e6]
  exact ⟨rfl, hq0, hqle⟩

/-- C1: for every constructed configuration (all weights positive, mode Least
or Most) and every allocatable capacity map, the per-node scorer returns the
Go truncating division of the (wrapped int64) sum of s·capacity·weight over
the configured resources by the (wrapped int64) sum of the weights, where
s = -1 in Least mode, +1 in Most mode, and an absent resource contributes
capacity 0; in particular, with mode Least and weights cpu 1, memory 1, a
node with allocatable cpu 4 and memory 8 scores -6, and a node with
allocatable cpu 2 and memory 2 scores -2. -/
theorem C1_scorer_weighted_quotient :
    (∀ (cfg alloc : List (String × Int)) (mode : String),
      mode = Least ∨ mode = Most → (∀ p ∈ cfg, 0 < p.2) →
      resourceScorer cfg mode alloc =
        i64div
          (toInt64 ((cfg.map fun p =>
            (if mode = Least then -1 else 1) * allocOf alloc p.1 * p.2)).sum)
          (toInt64 ((cfg.map Prod.snd).sum))) ∧
    resourceScorer [("cpu", 1), ("memory", 1)] Least [("cpu", 4), ("memory", 8)] = -6 ∧
    resourceScorer [("cpu", 1), ("memory", 1)] Least [("cpu", 2), ("memory", 2)] = -2 := by
  refine ⟨?_, by decide, by decide⟩
  intro cfg alloc mode hmode hw
  unfold resourceScorer
  rw [scoreAcc_eq]
  congr 1
  apply toInt64_congr
  apply sum_map_modEq
  intro p hp
  rcases hmode with hm | hm <;> subst hm
  · rw [if_pos rfl]
    unfold score
    rw [if_pos rfl]
    exact (toInt64_modEq (-1 * allocOf alloc p.1)).mul_right p.2
  · rw [if_neg (by decide : ¬(Most = Least)), one_mul]
    unfold score
    rw [if_neg (by decide : ¬(Most = Least)), if_pos rfl]

/-- Witness for C1: the general statement applied at the one-resource
configuration cpu weight 1 in Least mode with allocatable cpu 4 yields -4. -/
theorem C1_witness :
    ((Least = Least ∨ Least = Most) ∧ (∀ p ∈ [(("cpu" : String), (1 : Int))], 0 < p.2)) ∧
    resourceScorer [("cpu", 1)] Least [("cpu", 4)] = -4 := by
  have h := C1_scorer_weighted_quotient.1 [("cpu", 1)] [("cpu", 4)] Least (Or.inl rfl)
    (by decide)
  exact ⟨⟨Or.inl rfl, by decide⟩, h.trans (by decide)⟩

/-- C2 counterexample: raw scores 0 and 2^57 are two distinct values, yet the
element holding the highest raw score is rewritten to -28, not MaxNodeScore
(= 100): the int64 multiplication (2^57 - 0) * 100 overflows and wraps. -/
theorem C2_counterexample :
    listHighest [⟨"a", 0⟩, ⟨"b", 2 ^ 57⟩] = 2 ^ 57 ∧
    listLowest [⟨"a", 0⟩, ⟨"b", 2 ^ 57⟩] = 0 ∧
    NormalizeScore [⟨"a", 0⟩, ⟨"b", 2 ^ 57⟩] = [⟨"a", 0⟩, ⟨"b", -28⟩] ∧
    (-28 : Int) ≠ MaxNodeScore :=
  ⟨by decide, by decide, by decide, by decide⟩

/-- C2 (amended): for every input score list containing at least two distinct
raw score values, provided additionally that (highest - lowest) multiplied by
(MaxScore - MinScore) does not exceed the int64 range (no overflow),
NormalizeScore rewrites every element's score to
((rawScore - lowest) * (MaxScore - MinScore) / (highest - lowest)) + MinScore
with integer truncating division, which maps every element that held the
lowest raw score to exactly MinScore and every element that held the highest
raw score to exactly MaxScore. -/
theorem C2_normalize_two_distinct (l : List NodeScore)
    (x y : NodeScore) (hx : x ∈ l) (hy : y ∈ l) (hxy : x.score ≠ y.score)
    (hspread : (listHighest l - listLowest l) * (MaxNodeScore - MinNodeScore) ≤ int64Max) :
    NormalizeScore l = (l.map fun s =>
      ⟨s.name,
       Int.tdiv ((s.score - listLowest l) * (MaxNodeScore - MinNodeScore))
          (listHighest l - listLowest l) + MinNodeScore⟩) ∧
    (∀ s ∈ l, s.score = listLowest l →
      Int.tdiv ((s.score - listLowest l) * (MaxNodeScore - MinNodeScore))
          (listHighest l - listLowest l) + MinNodeScore = MinNodeScore) ∧
    (∀ s ∈ l, s.score = listHighest l →
      Int.tdiv ((s.score - listLowest l) * (MaxNodeScore - MinNodeScore))
          (listHighest l - listLowest l) + MinNodeScore = MaxNodeScore) := by
  have hMM : MaxNodeScore - MinNodeScore = (100 : Int) := by decide
  have hD1 : 1 ≤ listHighest l - listLowest l := by
    have h1 := listLowest_le_mem hx
    have h2 := listLowest_le_mem hy
    have h3 := mem_le_listHighest hx
    have h4 := mem_le_listHighest hy
    omega
  have hspread100 := hspread
  rw [hMM] at hspread100
  have hDmax : listHighest l - listLowest l ≤ int64Max := by
    rw [int64Max_eq] at hspread100 ⊢; omega
  have hiR : i64sub (listHighest l) (listLowest l) = listHighest l - listLowest l :=
    toInt64_eq_self (by rw [int64Min_eq]; omega) hDmax
  have hR0 : i64sub (listHighest l) (listLowest l) ≠ 0 := by rw [hiR]; omega
  refine ⟨?_, ?_, ?_⟩
  · rw [NormalizeScore_eq]
    apply List.map_congr_left
    intro s hs
    rw [if_neg hR0]
    exact congrArg (NodeScore.mk s.name) (normalize_elem_value hs hD1 hspread).1
  · intro s hs hlow
    rw [hlow, sub_self, zero_mul, Int.zero_tdiv, zero_add]
  · intro s hs hhigh
    rw [hhigh, hMM, Int.mul_tdiv_cancel_left 100 (by omega)]
    decide

/-- Witness for C2: the spec's Least-mode scenario raw scores -6 and -2
normalize to 0 and 100. -/
theorem C2_witness :
    ((⟨"A", -6⟩ : NodeScore) ∈ [(⟨"A", -6⟩ : NodeScore), ⟨"B", -2⟩] ∧
      (⟨"B", -2⟩ : NodeScore) ∈ [(⟨"A", -6⟩ : NodeScore), ⟨"B", -2⟩] ∧
      ((-6 : Int) ≠ -2) ∧
      (listHighest [(⟨"A", -6⟩ : NodeScore), ⟨"B", -2⟩] -
          listLowest [(⟨"A", -6⟩ : NodeScore), ⟨"B", -2⟩]) *
          (MaxNodeScore - MinNodeScore) ≤ int64Max) ∧
    NormalizeScore [(⟨"A", -6⟩ : NodeScore), ⟨"B", -2⟩] = [⟨"A", 0⟩, ⟨"B", 100⟩] := by
  have h := C2_normalize_two_distinct [⟨"A", -6⟩, ⟨"B", -2⟩] ⟨"A", -6⟩ ⟨"B", -2⟩
    (by decide) (by decide) (by decide) (by decide)
  exact ⟨⟨by decide, by decide, by decide, by decide⟩, h.1.trans (by decide)⟩

/-- C3: for every non-empty input score list in which every element has the
same int64 raw score (including every single-element list, regardless of its
raw value), NormalizeScore sets every element's score to exactly
MinNodeScore. -/
theorem C3_all_equal_min (l : List NodeScore) (v : Int) (hne : l ≠ [])
    (hall : ∀ s ∈ l, s.score = v) (hv : InRange64 v) :
    ∀ s ∈ NormalizeScore l, s.score = MinNodeScore := by
  have hLv : listLowest l = v := by
    rcases l with _ | ⟨t, rest⟩
    · exact absurd rfl hne
    · have hmem : t ∈ t :: rest := List.mem_cons_self t rest
      have h1 : listLowest (t :: rest) ≤ v := by
        have h2 := listLowest_le_mem hmem
        rw [hall t hmem] at h2
        exact h2
      rcases foldLowest_choice (t :: rest) int64Max with h | ⟨s, hs, he⟩
      · have hv2 := hv.2
        unfold listLowest at h1 ⊢
        omega
      · unfold listLowest
        rw [he, hall s hs]
  rw [NormalizeScore_eq]
  by_cases h0 : i64sub (listHighest l) (listLowest l) = 0
  · intro s hs
    simp only [if_pos h0] at hs
    obtain ⟨t, htl, hte⟩ := List.mem_map.mp hs
    rw [← hte]
  · intro s hs
    simp only [if_neg h0] at hs
    obtain ⟨t, htl, hte⟩ := List.mem_map.mp hs
    rw [← hte]
    dsimp only
    rw [show i64sub t.score (listLowest l) = 0 by rw [hLv, hall t htl]; exact i64sub_self v]
    rw [i64mul_zero_left, i64div_zero_left]
    decide

/-- Witness for C3: a single-element list with raw score 7 normalizes to
MinNodeScore. -/
theorem C3_witness :
    (([(⟨"n1", 7⟩ : NodeScore)] : List NodeScore) ≠ [] ∧
      (∀ s ∈ [(⟨"n1", 7⟩ : NodeScore)], s.score = 7) ∧ InRange64 7) ∧
    ∀ s ∈ NormalizeScore [(⟨"n1", 7⟩ : NodeScore)], s.score = MinNodeScore := by
  refine ⟨⟨by decide, by decide, by decide⟩, ?_⟩
  exact C3_all_equal_min [⟨"n1", 7⟩] 7 (by decide) (by decide) (by decide)

/-- C4 counterexample: constructing with no argument object at all (nil args)
succeeds but leaves the mode as the empty string rather than Least, so the
scorer returns 0 per resource — the spec's Least scenario would score -6,
the nil-args plugin scores 0. -/
theorem C4_counterexample :
    NewAllocatable none = Except.ok ⟨defaultResourcesToWeightMap, ""⟩ ∧
    ("" : String) ≠ Least ∧
    score 4 "" = 0 ∧
    resourceScorer defaultResourcesToWeightMap "" [("cpu", 4), ("memory", 8)] = 0 ∧
    resourceScorer defaultResourcesToWeightMap Least [("cpu", 4), ("memory", 8)] = -6 :=
  ⟨rfl, by decide, by decide, by decide, by decide⟩

/-- C4 (amended): when an argument object is supplied whose mode field is
empty (and whose resources validate), construction succeeds with the mode
defaulted to Least, and in Least mode each representable capacity scores
-capacity; when no argument object is supplied at all, construction succeeds
but the mode stays the empty string and every resource scores 0. -/
theorem C4_empty_mode_defaults_least (args : NodeResourcesAllocatableArgs)
    (hm : args.mode = "") (hv : ∀ p ∈ args.resources, 0 < p.2) :
    (∃ m, NewAllocatable (some args) = Except.ok ⟨m, Least⟩) ∧
    (∀ c : Int, int64Min < c → c ≤ int64Max → score c Least = -c) ∧
    (∃ m, NewAllocatable none = Except.ok ⟨m, ""⟩) ∧
    (∀ c : Int, score c "" = 0) := by
  refine ⟨?_, ?_, ⟨defaultResourcesToWeightMap, rfl⟩, ?_⟩
  · rw [NewAllocatable_some, validateResources_ok hv, hm]
    rw [if_pos rfl]
    exact ⟨_, rfl⟩
  · intro c h1 h2
    unfold score
    rw [if_pos rfl]
    unfold i64mul
    rw [neg_one_mul]
    refine toInt64_eq_self ?_ ?_
    · rw [int64Min_eq] at h1 ⊢; rw [int64Max_eq] at h2; omega
    · rw [int64Max_eq] at h2 ⊢; rw [int64Min_eq] at h1; omega
  · intro c
    unfold score
    rw [if_neg (by decide : ¬(("" : String) = Least)),
      if_neg (by decide : ¬(("" : String) = Most))]

/-- Witness for C4 (amended): args with resources cpu weight 3 and empty mode
construct successfully with mode Least, and Least scores capacity 4 as -4. -/
theorem C4_witness :
    ((⟨[("cpu", 3)], ""⟩ : NodeResourcesAllocatableArgs).mode = "" ∧
      (∀ p ∈ (⟨[("cpu", 3)], ""⟩ : NodeResourcesAllocatableArgs).resources, 0 < p.2)) ∧
    (∃ m, NewAllocatable (some ⟨[("cpu", 3)], ""⟩) = Except.ok ⟨m, Least⟩) ∧
    score 4 Least = -4 := by
  have h := C4_empty_mode_defaults_least ⟨[("cpu", 3)], ""⟩ rfl (by decide)
  refine ⟨⟨rfl, by decide⟩, h.1, ?_⟩
  have h2 := h.2.1 4 (by decide) (by decide)
  simpa using h2

/-- C5 counterexample: four supplied resources, each with the positive weight
2^62, pass validation and construction succeeds, but the wrapped int64
weight sum accumulated by the scorer loop is exactly 0 — the final division
`nodeScore / weightSum` is a division by zero (a Go runtime panic). -/
theorem C5_counterexample :
    NewAllocatable
        (some ⟨[("a", 2 ^ 62), ("b", 2 ^ 62), ("c", 2 ^ 62), ("d", 2 ^ 62)], Most⟩) =
      Except.ok ⟨[("a", 2 ^ 62), ("b", 2 ^ 62), ("c", 2 ^ 62), ("d", 2 ^ 62)], Most⟩ ∧
    (∀ p ∈ [(("a" : String), (2 : Int) ^ 62), ("b", 2 ^ 62), ("c", 2 ^ 62), ("d", 2 ^ 62)],
      0 < p.2) ∧
    nodeWeightSum [("a", 2 ^ 62), ("b", 2 ^ 62), ("c", 2 ^ 62), ("d", 2 ^ 62)] = 0 ∧
    (scoreAcc [("a", 2 ^ 62), ("b", 2 ^ 62), ("c", 2 ^ 62), ("d", 2 ^ 62)] Most
      [("a", 5)]).2 = 0 :=
  ⟨rfl, by decide, by decide, by decide⟩

/-- C5 (amended): every successfully constructed plugin carries a non-empty
weight table whose weights are all positive, and whenever the mathematical
weight sum does not exceed int64Max (no overflow) the wrapped weight sum the
scorer divides by equals it and is strictly positive — so no division by
zero.  (When the weight sum overflows int64 the wrapped sum can reach 0; see
the counterexample.) -/
theorem C5_weight_map_invariant (x : Option NodeResourcesAllocatableArgs)
    (p : AllocatablePlugin) (h : NewAllocatable x = Except.ok p) :
    p.resourceToWeightMap ≠ [] ∧
    (∀ q ∈ p.resourceToWeightMap, 0 < q.2) ∧
    ((p.resourceToWeightMap.map Prod.snd).sum ≤ int64Max →
      nodeWeightSum p.resourceToWeightMap = (p.resourceToWeightMap.map Prod.snd).sum ∧
      0 < nodeWeightSum p.resourceToWeightMap) := by
  have hmain : p.resourceToWeightMap ≠ [] ∧ (∀ q ∈ p.resourceToWeightMap, 0 < q.2) := by
    rcases x with _ | args
    · unfold NewAllocatable at h
      injection h with h1
      subst h1
      exact ⟨by decide, by decide⟩
    · rw [NewAllocatable_some] at h
      cases hval : validateResources args.resources with
      | error e => rw [hval] at h; simp at h
      | ok u =>
        rw [hval] at h
        injection h with h1
        subst h1
        by_cases hlen : args.resources.length > 0
        · have hne : args.resources ≠ [] := by
            intro he; rw [he] at hlen; simp at hlen
          constructor
          · show (if args.resources.length > 0 then buildResourceMap args.resources
              else defaultResourcesToWeightMap) ≠ []
            rw [if_pos hlen]
            exact buildResourceMap_ne_nil hne
          · show ∀ q ∈ (if args.resources.length > 0 then buildResourceMap args.resources
              else defaultResourcesToWeightMap), 0 < q.2
            rw [if_pos hlen]
            intro q hq
            exact validateResources_ok_pos hval q (buildResourceMap_mem hq)
        · constructor
          · show (if args.resources.length > 0 then buildResourceMap args.resources
              else defaultResourcesToWeightMap) ≠ []
            rw [if_neg hlen]
            decide
          · show ∀ q ∈ (if args.resources.length > 0 then buildResourceMap args.resources
              else defaultResourcesToWeightMap), 0 < q.2
            rw [if_neg hlen]
            decide
  refine ⟨hmain.1, hmain.2, fun hsum => ?_⟩
  have hpos : 0 < (p.resourceToWeightMap.map Prod.snd).sum := by
    apply List.sum_pos
    · intro w hw
      obtain ⟨q, hq, rfl⟩ := List.mem_map.mp hw
      exact hmain.2 q hq
    · intro hnil
      rw [List.map_eq_nil_iff] at hnil
      exact hmain.1 hnil
  rw [nodeWeightSum_eq]
  rw [toInt64_eq_self (by rw [int64Min_eq]; omega) hsum]
  exact ⟨rfl, hpos⟩

/-- Witness for C5 (amended): the nil-args construction yields the default
table, non-empty with positive weights, and its wrapped weight sum is 2. -/
theorem C5_witness :
    (NewAllocatable none = Except.ok ⟨defaultResourcesToWeightMap, ""⟩ ∧
      (defaultResourcesToWeightMap.map Prod.snd).sum ≤ int64Max) ∧
    defaultResourcesToWeightMap ≠ [] ∧
    (∀ q ∈ defaultResourcesToWeightMap, 0 < q.2) ∧
    nodeWeightSum defaultResourcesToWeightMap = 2 ∧
    0 < nodeWeightSum defaultResourcesToWeightMap := by
  have h := C5_weight_map_invariant none ⟨defaultResourcesToWeightMap, ""⟩ rfl
  exact ⟨⟨rfl, by decide⟩, h.1, h.2.1, ((h.2.2 (by decide)).1).trans (by decide),
    (h.2.2 (by decide)).2⟩

/-- C6 counterexample: for raw scores 0 and 2^58, the normalized score of the
second element is -28, which lies outside [MinNodeScore, MaxNodeScore]: the
int64 product (rawScore - lowest) * (MaxScore - MinScore) wraps. -/
theorem C6_counterexample :
    NormalizeScore [⟨"a", 0⟩, ⟨"b", 2 ^ 58⟩] = [⟨"a", 0⟩, ⟨"b", -28⟩] ∧
    ∃ s ∈ NormalizeScore [(⟨"a", 0⟩ : NodeScore), ⟨"b", 2 ^ 58⟩],
      ¬(MinNodeScore ≤ s.score ∧ s.score ≤ MaxNodeScore) :=
  ⟨by decide, ⟨⟨"b", -28⟩, by decide, by decide⟩⟩

/-- C6 (amended): for every input list of int64 raw scores such that
(highest - lowest) * (MaxScore - MinScore) does not exceed the int64 range
(no overflow), every element's score after NormalizeScore lies in the
inclusive range [MinNodeScore, MaxNodeScore]. -/
theorem C6_normalized_bounded (l : List NodeScore)
    (hr : ∀ s ∈ l, InRange64 s.score)
    (hspread : (listHighest l - listLowest l) * (MaxNodeScore - MinNodeScore) ≤ int64Max) :
    ∀ s ∈ NormalizeScore l, MinNodeScore ≤ s.score ∧ s.score ≤ MaxNodeScore := by
  rw [NormalizeScore_eq]
  by_cases h0 : i64sub (listHighest l) (listLowest l) = 0
  · intro s hs
    simp only [if_pos h0] at hs
    obtain ⟨t, htl, hte⟩ := List.mem_map.mp hs
    rw [← hte]
    show MinNodeScore ≤ MinNodeScore ∧ MinNodeScore ≤ MaxNodeScore
    exact ⟨le_refl _, by decide⟩
  · intro s hs
    simp only [if_neg h0] at hs
    obtain ⟨t, htl, hte⟩ := List.mem_map.mp hs
    rw [← hte]
    dsimp only
    have hD1 : 1 ≤ listHighest l - listLowest l := by
      have hL := listLowest_le_mem htl
      have hH := mem_le_listHighest htl
      by_contra hc
      have hD0 : listHighest l - listLowest l = 0 := by omega
      refine h0 ?_
      unfold i64sub
      rw [hD0]
      decide
    have h := normalize_elem_value htl hD1 hspread
    rw [h.1]
    exact ⟨h.2.1, h.2.2⟩

/-- Witness for C6 (amended): the two-element list with raw scores 3 and 9
has a small spread; all normalized scores lie within [0, 100]. -/
theorem C6_witness :
    ((∀ s ∈ [(⟨"a", 3⟩ : NodeScore), ⟨"b", 9⟩], InRange64 s.score) ∧
      (listHighest [(⟨"a", 3⟩ : NodeScore), ⟨"b", 9⟩] -
          listLowest [(⟨"a", 3⟩ : NodeScore), ⟨"b", 9⟩]) *
          (MaxNodeScore - MinNodeScore) ≤ int64Max) ∧
    ∀ s ∈ NormalizeScore [(⟨"a", 3⟩ : NodeScore), ⟨"b", 9⟩],
      MinNodeScore ≤ s.score ∧ s.score ≤ MaxNodeScore := by
  refine ⟨⟨by decide, by decide⟩, ?_⟩
  exact C6_normalized_bounded [⟨"a", 3⟩, ⟨"b", 9⟩] (by decide) (by decide)

/-- C7 counterexample: with the single configured resource cpu of weight 2 in
Most mode, raising the only nonzero capacity from 2^62 - 1 to 2^62 makes the
int64 product capacity * weight overflow, and the returned score drops from
2^62 - 1 to -2^62 — increasing the capacity decreased the score. -/
theorem C7_counterexample :
    resourceScorer [("cpu", 2)] Most [("cpu", 2 ^ 62 - 1)] = 2 ^ 62 - 1 ∧
    resourceScorer [("cpu", 2)] Most [("cpu", 2 ^ 62)] = -2 ^ 62 ∧
    ((2 : Int) ^ 62 - 1 ≤ 2 ^ 62) ∧
    resourceScorer [("cpu", 2)] Most [("cpu", 2 ^ 62)] <
      resourceScorer [("cpu", 2)] Most [("cpu", 2 ^ 62 - 1)] :=
  ⟨by decide, by decide, by decide, by decide⟩

/-- C7 (amended): for a configuration with positive weights in which the
allocatable maps give capacity 0 to every configured resource other than r,
the per-node score is monotone in r's capacity — non-decreasing under Most
and non-increasing under Least — provided neither weighted capacity product
nor the weight sum overflows int64.  (With overflow the property fails; see
the counterexample.) -/
theorem C7_monotone (cfg : List (String × Int)) (r : String)
    (a1 a2 : List (String × Int)) (c1 c2 W0 S : Int)
    (hw : ∀ p ∈ cfg, 0 < p.2) (hcfg : cfg ≠ [])
    (hW0 : W0 = (cfg.map fun p => if p.1 = r then p.2 else 0).sum)
    (hS : S = (cfg.map Prod.snd).sum)
    (hz1 : ∀ p ∈ cfg, p.1 ≠ r → allocOf a1 p.1 = 0)
    (hz2 : ∀ p ∈ cfg, p.1 ≠ r → allocOf a2 p.1 = 0)
    (hc1 : allocOf a1 r = c1) (hc2 : allocOf a2 r = c2)
    (hle : c1 ≤ c2)
    (hSmax : S ≤ int64Max)
    (hb1 : -int64Max ≤ c1 * W0 ∧ c1 * W0 ≤ int64Max)
    (hb2 : -int64Max ≤ c2 * W0 ∧ c2 * W0 ≤ int64Max) :
    resourceScorer cfg Most a1 ≤ resourceScorer cfg Most a2 ∧
    resourceScorer cfg Least a2 ≤ resourceScorer cfg Least a1 := by
  have hW0nn : 0 ≤ W0 := by
    rw [hW0]
    apply List.sum_nonneg
    intro w hwm
    obtain ⟨q, hq, rfl⟩ := List.mem_map.mp hwm
    by_cases hqr : q.1 = r
    · rw [if_pos hqr]; exact (hw q hq).le
    · rw [if_neg hqr]
  have hSpos : 0 < S := by
    rw [hS]
    apply List.sum_pos
    · intro w hwm
      obtain ⟨q, hq, rfl⟩ := List.mem_map.mp hwm
      exact hw q hq
    · intro hnil; rw [List.map_eq_nil_iff] at hnil; exact hcfg hnil
  have htS : toInt64 S = S := toInt64_eq_self (by rw [int64Min_eq]; omega) hSmax
  have hsumMost : ∀ (a : List (String × Int)) (c : Int),
      (∀ p ∈ cfg, p.1 ≠ r → allocOf a p.1 = 0) → allocOf a r = c →
      (cfg.map fun p => score (allocOf a p.1) Most * p.2).sum = c * W0 := by
    intro a c hz hc
    rw [hW0, ← List.sum_map_mul_left]
    apply congrArg List.sum
    apply List.map_congr_left
    intro q hq
    by_cases hqr : q.1 = r
    · rw [if_pos hqr]
      unfold score
      rw [if_neg (by decide : ¬(Most = Least)), if_pos rfl]
      rw [hqr, hc]
    · rw [if_neg hqr]
      unfold score
      rw [if_neg (by decide : ¬(Most = Least)), if_pos rfl]
      rw [hz q hq hqr, zero_mul, mul_zero]
  have hsumLeast : ∀ (a : List (String × Int)) (c : Int),
      (∀ p ∈ cfg, p.1 ≠ r → allocOf a p.1 = 0) → allocOf a r = c →
      toInt64 ((cfg.map fun p => score (allocOf a p.1) Least * p.2).sum) =
        toInt64 (-(c * W0)) := by
    intro a c hz hc
    have h1 : Int.ModEq int64Mod ((cfg.map fun p => score (allocOf a p.1) Least * p.2).sum)
        ((cfg.map fun p => -c * (if p.1 = r then p.2 else 0)).sum) := by
      apply sum_map_modEq
      intro q hq
      unfold score
      rw [if_pos rfl]
      by_cases hqr : q.1 = r
      · rw [if_pos hqr, hqr, hc]
        show Int.ModEq int64Mod (toInt64 (-1 * c) * q.2) (-c * q.2)
        have h2 := (toInt64_modEq (-1 * c)).mul_right q.2
        simpa [neg_one_mul] using h2
      · rw [if_neg hqr, hz q hq hqr, mul_zero]
        show Int.ModEq int64Mod (toInt64 (-1 * 0) * q.2) 0
        have h2 := (toInt64_modEq (-1 * 0)).mul_right q.2
        simpa using h2
    rw [toInt64_congr h1, List.sum_map_mul_left, ← hW0, neg_mul]
  have hcalc : ∀ (a : List (String × Int)) (c : Int),
      (∀ p ∈ cfg, p.1 ≠ r → allocOf a p.1 = 0) → allocOf a r = c →
      (-int64Max ≤ c * W0 ∧ c * W0 ≤ int64Max) →
      resourceScorer cfg Most a = Int.tdiv (c * W0) S ∧
      resourceScorer cfg Least a = Int.tdiv (-(c * W0)) S := by
    intro a c hz hc hb
    have hbr : InRange64 (c * W0) :=
      ⟨by rw [int64Min_eq]; rw [int64Max_eq] at hb; omega, hb.2⟩
    have hbrn : InRange64 (-(c * W0)) :=
      ⟨by rw [int64Min_eq]; rw [int64Max_eq] at hb; omega,
       by rw [int64Max_eq] at hb ⊢; omega⟩
    constructor
    · unfold resourceScorer
      rw [scoreAcc_eq]
      dsimp only
      rw [hsumMost a c hz hc, ← hS, htS, toInt64_eq_self hbr.1 hbr.2]
      unfold i64div
      have hq := tdiv_inRange hSpos hbr
      exact toInt64_eq_self hq.1 hq.2
    · unfold resourceScorer
      rw [scoreAcc_eq]
      dsimp only
      rw [hsumLeast a c hz hc, ← hS, htS, toInt64_eq_self hbrn.1 hbrn.2]
      unfold i64div
      have hq := tdiv_inRange hSpos hbrn
      exact toInt64_eq_self hq.1 hq.2
  obtain ⟨hm1, hl1⟩ := hcalc a1 c1 hz1 hc1 hb1
  obtain ⟨hm2, hl2⟩ := hcalc a2 c2 hz2 hc2 hb2
  have hmul : c1 * W0 ≤ c2 * W0 := mul_le_mul_of_nonneg_right hle hW0nn
  constructor
  · rw [hm1, hm2]
    exact tdiv_le_tdiv_right hSpos hmul
  · rw [hl1, hl2]
    exact tdiv_le_tdiv_right hSpos (by omega)

/-- Witness for C7 (amended): one resource cpu with weight 2; raising the
capacity from 3 to 5 does not decrease the Most score and does not increase
the Least score. -/
theorem C7_witness :
    resourceScorer [("cpu", 2)] Most [("cpu", 3)] ≤
      resourceScorer [("cpu", 2)] Most [("cpu", 5)] ∧
    resourceScorer [("cpu", 2)] Least [("cpu", 5)] ≤
      resourceScorer [("cpu", 2)] Least [("cpu", 3)] :=
  C7_monotone [("cpu", 2)] "cpu" [("cpu", 3)] [("cpu", 5)] 3 5 2 2
    (by decide) (by decide) (by decide) (by decide) (by decide) (by decide)
    (by decide) (by decide) (by decide) (by decide) (by decide) (by decide)

/-- C8: applying NormalizeScore to a list whose highest raw score is exactly
MaxNodeScore and whose lowest raw score is exactly MinNodeScore leaves every
element unchanged — normalization is idempotent on such already-normalized
lists. -/
theorem C8_idempotent (l : List NodeScore)
    (hH : listHighest l = MaxNodeScore) (hL : listLowest l = MinNodeScore) :
    NormalizeScore l = l := by
  rw [NormalizeScore_eq]
  have h0 : i64sub (listHighest l) (listLowest l) ≠ 0 := by
    rw [hH, hL]; decide
  refine (List.map_congr_left ?_).trans (List.map_id l)
  intro s hs
  rw [if_neg h0, hH, hL]
  have hs0 : MinNodeScore ≤ s.score := by rw [← hL]; exact listLowest_le_mem hs
  have hs100 : s.score ≤ MaxNodeScore := by rw [← hH]; exact mem_le_listHighest hs
  have hMin : MinNodeScore = (0 : Int) := rfl
  have hMax : MaxNodeScore = (100 : Int) := rfl
  rw [hMin] at hs0
  rw [hMax] at hs100
  rw [hMin, hMax]
  have e1 : i64sub s.score 0 = s.score := by
    unfold i64sub
    rw [sub_zero]
    exact toInt64_eq_self (by rw [int64Min_eq]; omega) (by rw [int64Max_eq]; omega)
  have e2 : i64sub (100 : Int) 0 = 100 := by decide
  have e3 : i64mul s.score 100 = s.score * 100 :=
    toInt64_eq_self (by rw [int64Min_eq]; omega) (by rw [int64Max_eq]; omega)
  have e4 : i64div (s.score * 100) 100 = s.score := by
    unfold i64div
    rw [Int.mul_tdiv_cancel s.score (by norm_num)]
    exact toInt64_eq_self (by rw [int64Min_eq]; omega) (by rw [int64Max_eq]; omega)
  have e5 : i64add s.score 0 = s.score := by
    unfold i64add
    rw [add_zero]
    exact toInt64_eq_self (by rw [int64Min_eq]; omega) (by rw [int64Max_eq]; omega)
  rw [e2, e1, e3, e4, e5]
  rfl

/-- Witness for C8: the already-normalized list with scores 0 and 100 is left
unchanged by NormalizeScore. -/
theorem C8_witness :
    (listHighest [(⟨"a", 0⟩ : NodeScore), ⟨"b", 100⟩] = MaxNodeScore ∧
      listLowest [(⟨"a", 0⟩ : NodeScore), ⟨"b", 100⟩] = MinNodeScore) ∧
    NormalizeScore [(⟨"a", 0⟩ : NodeScore), ⟨"b", 100⟩] = [⟨"a", 0⟩, ⟨"b", 100⟩] := by
  refine ⟨⟨by decide, by decide⟩, ?_⟩
  exact C8_idempotent [⟨"a", 0⟩, ⟨"b", 100⟩] (by decide) (by decide)

/-- C9: the per-node scorer depends only on the multiset of (resource,
weight) pairs: any two iteration orders (permutations) of the weight table
produce identical int64 scores on identical inputs, so repeated evaluations
are deterministic regardless of Go map iteration order. -/
theorem C9_perm_invariant (c1 c2 : List (String × Int)) (mode : String)
    (alloc : List (String × Int)) (hp : c1.Perm c2) :
    resourceScorer c1 mode alloc = resourceScorer c2 mode alloc := by
  unfold resourceScorer
  rw [scoreAcc_eq, scoreAcc_eq]
  rw [(hp.map fun p => score (allocOf alloc p.1) mode * p.2).sum_eq,
    (hp.map Prod.snd).sum_eq]

/-- Witness for C9: the default table iterated as cpu, memory and as memory,
cpu gives the same Least score on the spec's node A. -/
theorem C9_witness :
    ([(("cpu" : String), (1 : Int)), ("memory", 1)].Perm
      [(("memory" : String), (1 : Int)), ("cpu", 1)]) ∧
    resourceScorer [("cpu", 1), ("memory", 1)] Least [("cpu", 4), ("memory", 8)] =
      resourceScorer [("memory", 1), ("cpu", 1)] Least [("cpu", 4), ("memory", 8)] := by
  refine ⟨by decide, ?_⟩
  exact C9_perm_invariant [("cpu", 1), ("memory", 1)] [("memory", 1), ("cpu", 1)]
    Least [("cpu", 4), ("memory", 8)] (by decide)

/-- C10: whenever some supplied resource spec has weight ≤ 0, construction
fails with the error naming an offending resource and its invalid weight
(the first such entry), and no plugin value is produced. -/
theorem C10_invalid_weight_error (args : NodeResourcesAllocatableArgs)
    (h : ∃ q ∈ args.resources, q.2 ≤ 0) :
    ∃ q ∈ args.resources, q.2 ≤ 0 ∧
      NewAllocatable (some args) = Except.error (weightErrMsg q.1 q.2) := by
  obtain ⟨q, hq, hqw, hqe⟩ := validateResources_first_bad h
  refine ⟨q, hq, hqw, ?_⟩
  rw [NewAllocatable_some, hqe]

/-- Witness for C10: supplying gpu with weight 0 makes construction fail with
the error naming gpu and 0. -/
theorem C10_witness :
    (∃ q ∈ (⟨[("gpu", 0)], Most⟩ : NodeResourcesAllocatableArgs).resources, q.2 ≤ 0) ∧
    ∃ q ∈ (⟨[("gpu", 0)], Most⟩ : NodeResourcesAllocatableArgs).resources, q.2 ≤ 0 ∧
      NewAllocatable (some ⟨[("gpu", 0)], Most⟩) = Except.error (weightErrMsg q.1 q.2) := by
  refine ⟨⟨("gpu", 0), by decide, by decide⟩, ?_⟩
  exact C10_invalid_weight_error ⟨[("gpu", 0)], Most⟩ ⟨("gpu", 0), by decide, by decide⟩

end NRAlloc
